import Mathlib

/-
Verification of the computational core of the GoldbachVisualizer repository
(file goldbach_plot.py): prime sieve, Goldbach pair enumeration, coordinate
enrichment, and grouping by sum.  Python integers are modelled as Int (Nat
where the source only produces nonnegative values), Python lists as List,
the insertion-ordered dict as an association list, and a raised exception
as the none case of an Option result.
-/

/-- A pair record as produced by goldbachs_calculation: the source appends
the tuple (prime1, y_sum, prime2), with the sum in the middle position. -/
structure Coord where
  prime1 : Int
  y_sum : Int
  prime2 : Int
deriving DecidableEq, Repr

/-- An enriched record as produced by enhance_coordinates: the source appends
the tuple (p1, p2, s, index1, index2, dup_count). -/
structure Enhanced where
  prime1 : Int
  prime2 : Int
  sum : Int
  index1 : Nat
  index2 : Nat
  dup_count : Nat
deriving DecidableEq, Repr

/-- Embedding of goldbachs_calculation(primelist, max_sum).  The Python body
is a nested loop, i over range(len(primelist)) and j over
range(i, len(primelist)), appending (prime1, y_sum, prime2) whenever
y_sum is even and y_sum is at most max_sum.  Passing max_sum = None makes the
very first ceiling comparison raise a TypeError, which the surrounding
except-handler swallows, so the function then returns the (still empty)
accumulator; this is the none branch. -/
def goldbachs_calculation (primelist : List Int) (max_sum : Option Int) : List Coord :=
  match max_sum with
  | none => []
  | some m =>
    (List.range primelist.length).foldl (fun coords i =>
      (List.range' i (primelist.length - i)).foldl (fun cs j =>
        let prime1 := primelist.getD i 0
        let prime2 := primelist.getD j 0
        let y_sum := prime1 + prime2
        if y_sum % 2 = 0 ∧ y_sum ≤ m then cs ++ [⟨prime1, y_sum, prime2⟩] else cs)
        coords)
      []

/-- The record (if any) that the enumerator emits for the index pair ij. -/
def pairRecord (primelist : List Int) (m : Int) (ij : Nat × Nat) : Option Coord :=
  let prime1 := primelist.getD ij.1 0
  let prime2 := primelist.getD ij.2 0
  let y_sum := prime1 + prime2
  if y_sum % 2 = 0 ∧ y_sum ≤ m then some ⟨prime1, y_sum, prime2⟩ else none

/-- The index pairs (i, j) with i ≤ j < n, in the nested-loop order of the
source: outer index ascending, inner index ascending from the outer one. -/
def indexPairs (n : Nat) : List (Nat × Nat) :=
  (List.range n).flatMap (fun i => (List.range' i (n - i)).map (fun j => (i, j)))

theorem foldl_append_eq_flatMap {α β : Type} (step : List β → α → List β) (g : α → List β)
    (hstep : ∀ acc x, step acc x = acc ++ g x) (l : List α) :
    ∀ acc : List β, l.foldl step acc = acc ++ l.flatMap g := by
  induction l with
  | nil => intro acc; simp
  | cons a l ih =>
    intro acc
    rw [List.foldl_cons, hstep, ih, List.flatMap_cons, List.append_assoc]

theorem flatMap_toList_eq_filterMap {α β : Type} (f : α → Option β) (l : List α) :
    l.flatMap (fun x => (f x).toList) = l.filterMap f := by
  induction l with
  | nil => simp
  | cons a l ih =>
    rw [List.flatMap_cons, List.filterMap_cons, ih]
    cases f a <;> simp

theorem goldbachs_calculation_some (primelist : List Int) (m : Int) :
    goldbachs_calculation primelist (some m)
      = (indexPairs primelist.length).filterMap (pairRecord primelist m) := by
  have hinner : ∀ (i : Nat) (jl : List Nat) (acc : List Coord),
      jl.foldl (fun cs j =>
        let prime1 := primelist.getD i 0
        let prime2 := primelist.getD j 0
        let y_sum := prime1 + prime2
        if y_sum % 2 = 0 ∧ y_sum ≤ m then cs ++ [⟨prime1, y_sum, prime2⟩] else cs) acc
      = acc ++ jl.filterMap (fun j => pairRecord primelist m (i, j)) := by
    intro i jl acc
    rw [← flatMap_toList_eq_filterMap]
    apply foldl_append_eq_flatMap
    intro cs j
    simp only [pairRecord, Option.toList]
    split
    · rfl
    · simp
  have houter := foldl_append_eq_flatMap
    (fun coords i =>
      (List.range' i (primelist.length - i)).foldl (fun cs j =>
        let prime1 := primelist.getD i 0
        let prime2 := primelist.getD j 0
        let y_sum := prime1 + prime2
        if y_sum % 2 = 0 ∧ y_sum ≤ m then cs ++ [⟨prime1, y_sum, prime2⟩] else cs) coords)
    (fun i => (List.range' i (primelist.length - i)).filterMap
        (fun j => pairRecord primelist m (i, j)))
    (fun acc i => hinner i _ acc) (List.range primelist.length) []
  simp only [goldbachs_calculation]
  rw [houter, List.nil_append]
  unfold indexPairs
  rw [List.filterMap_flatMap]
  congr 1
  funext i
  rw [List.filterMap_map]
  rfl

theorem mem_indexPairs {n : Nat} {ij : Nat × Nat} :
    ij ∈ indexPairs n ↔ ij.1 ≤ ij.2 ∧ ij.2 < n := by
  unfold indexPairs
  rw [List.mem_flatMap]
  constructor
  · rintro ⟨i, hi, hmem⟩
    rw [List.mem_map] at hmem
    obtain ⟨j, hj, rfl⟩ := hmem
    rw [List.mem_range'_1] at hj
    rw [List.mem_range] at hi
    exact ⟨hj.1, by omega⟩
  · rintro ⟨h1, h2⟩
    refine ⟨ij.1, ?_, ?_⟩
    · rw [List.mem_range]; omega
    · rw [List.mem_map]
      refine ⟨ij.2, ?_, rfl⟩
      rw [List.mem_range'_1]
      omega

theorem indexPairs_pairwise (n : Nat) :
    (indexPairs n).Pairwise
      (fun a b => a.1 < b.1 ∨ (a.1 = b.1 ∧ a.2 < b.2)) := by
  unfold indexPairs
  rw [List.flatMap_def, List.pairwise_flatten]
  constructor
  · intro l hl
    rw [List.mem_map] at hl
    obtain ⟨i, _, rfl⟩ := hl
    have hr : (List.range' i (n - i)).Pairwise (· < ·) := by
      rw [List.pairwise_iff_getElem]
      intro a b ha hb hab
      rw [List.getElem_range', List.getElem_range']
      omega
    exact List.Pairwise.map _ (fun a b hab => Or.inr ⟨rfl, hab⟩) hr
  · rw [List.pairwise_map]
    have : (List.range n).Pairwise (· < ·) := List.pairwise_lt_range n
    refine this.imp_of_mem ?_
    intro a b _ _ hab
    intro x hx y hy
    rw [List.mem_map] at hx hy
    obtain ⟨j1, _, rfl⟩ := hx
    obtain ⟨j2, _, rfl⟩ := hy
    exact Or.inl hab

/-- C1: on an ordered prime list, every record returned by the pair enumerator
goldbachs_calculation has prime1 at most prime2, both operands members of the
input list, the stored sum equal to prime1 + prime2 and even, and the sum at
most the ceiling whenever a ceiling is set. -/
theorem goldbach_pairs_invariant (primes : List Int) (max_sum : Option Int) (r : Coord)
    (hsorted : primes.Sorted (· ≤ ·)) (hr : r ∈ goldbachs_calculation primes max_sum) :
    r.prime1 ≤ r.prime2 ∧ r.prime1 ∈ primes ∧ r.prime2 ∈ primes ∧
      r.y_sum = r.prime1 + r.prime2 ∧ Even r.y_sum ∧
      ∀ m, max_sum = some m → r.y_sum ≤ m := by
  cases max_sum with
  | none => simp [goldbachs_calculation] at hr
  | some m =>
    rw [goldbachs_calculation_some, List.mem_filterMap] at hr
    obtain ⟨ij, hmem, hrec⟩ := hr
    rw [mem_indexPairs] at hmem
    obtain ⟨hij, hjn⟩ := hmem
    have hin : ij.1 < primes.length := Nat.lt_of_le_of_lt hij hjn
    unfold pairRecord at hrec
    set p1 := primes.getD ij.1 0 with hp1
    set p2 := primes.getD ij.2 0 with hp2
    by_cases hcond : (p1 + p2) % 2 = 0 ∧ p1 + p2 ≤ m
    · rw [if_pos hcond] at hrec
      obtain rfl : Coord.mk p1 (p1 + p2) p2 = r := by exact Option.some.inj hrec
      have hg1 : p1 = primes[ij.1] := by rw [hp1, List.getD_eq_getElem primes 0 hin]
      have hg2 : p2 = primes[ij.2] := by rw [hp2, List.getD_eq_getElem primes 0 hjn]
      refine ⟨?_, ?_, ?_, rfl, ?_, ?_⟩
      · rcases Nat.eq_or_lt_of_le hij with heq | hlt
        · simp only [hg1, hg2, heq]
          exact le_refl _
        · rw [hg1, hg2]
          have := (List.pairwise_iff_getElem.mp hsorted) ij.1 ij.2 hin hjn hlt
          exact this
      · rw [hg1]; exact List.getElem_mem hin
      · rw [hg2]; exact List.getElem_mem hjn
      · exact Int.even_iff.mpr hcond.1
      · intro m2 hm2
        obtain rfl : m = m2 := Option.some.inj hm2
        exact hcond.2
    · rw [if_neg hcond] at hrec
      exact absurd hrec (Option.noConfusion)

/-- Witness for goldbach_pairs_invariant at the prime list [2, 3, 5] with
ceiling 10 and the record (3, 8, 5). -/
theorem goldbach_pairs_invariant_witness :
    (List.Sorted (· ≤ ·) [(2 : Int), 3, 5] ∧
        Coord.mk 3 8 5 ∈ goldbachs_calculation [2, 3, 5] (some 10)) ∧
      (Coord.mk 3 8 5).prime1 ≤ (Coord.mk 3 8 5).prime2 ∧
        (Coord.mk 3 8 5).prime1 ∈ [(2 : Int), 3, 5] ∧
        (Coord.mk 3 8 5).prime2 ∈ [(2 : Int), 3, 5] ∧
        (Coord.mk 3 8 5).y_sum = (Coord.mk 3 8 5).prime1 + (Coord.mk 3 8 5).prime2 ∧
        Even (Coord.mk 3 8 5).y_sum ∧
        ∀ m, some (10 : Int) = some m → (Coord.mk 3 8 5).y_sum ≤ m := by
  have h1 : List.Sorted (· ≤ ·) [(2 : Int), 3, 5] := by decide
  have h2 : Coord.mk 3 8 5 ∈ goldbachs_calculation [2, 3, 5] (some 10) := by decide
  exact ⟨⟨h1, h2⟩, goldbach_pairs_invariant [2, 3, 5] (some 10) (Coord.mk 3 8 5) h1 h2⟩

/-- C6: the output of the pair enumerator is exactly the image of the
lexicographically ordered nested-loop index pairs: it equals the filterMap of
pairRecord over indexPairs, the index pairs are strictly ascending in the
order outer index first and inner index second, and the enumerated index
pairs are exactly those with i ≤ j < length. -/
theorem goldbach_enumeration_order (primes : List Int) (m : Int) :
    goldbachs_calculation primes (some m)
        = (indexPairs primes.length).filterMap (pairRecord primes m) ∧
      (indexPairs primes.length).Pairwise
        (fun a b => a.1 < b.1 ∨ (a.1 = b.1 ∧ a.2 < b.2)) ∧
      ∀ ij : Nat × Nat, ij ∈ indexPairs primes.length ↔ ij.1 ≤ ij.2 ∧ ij.2 < primes.length :=
  ⟨goldbachs_calculation_some primes m, indexPairs_pairwise primes.length,
    fun _ => mem_indexPairs⟩

/-- C3 counterexample: with the ceiling argument unset (None), the enumerator
returns the empty list, because the very first ceiling comparison raises and
the handler returns the empty accumulator; in particular the record (2, 4, 2)
claimed by the golden test is absent. -/
theorem goldbach_none_counterexample :
    goldbachs_calculation [2, 3, 5, 7] none = [] ∧
      Coord.mk 2 4 2 ∉ goldbachs_calculation [2, 3, 5, 7] none := by
  constructor
  · rfl
  · decide

/-- C3 amended: on the prime list [2, 3, 5, 7] with ceiling 14, the enumerator
produces exactly the seven even-sum combinations with i ≤ j, in nested-loop
order, including (3, 6, 3); with the ceiling unset (None) it returns the
empty list. -/
theorem goldbach_golden_test :
    goldbachs_calculation [2, 3, 5, 7] (some 14) =
        [⟨2, 4, 2⟩, ⟨3, 6, 3⟩, ⟨3, 8, 5⟩, ⟨3, 10, 7⟩, ⟨5, 10, 5⟩, ⟨5, 12, 7⟩, ⟨7, 14, 7⟩] ∧
      goldbachs_calculation [2, 3, 5, 7] none = [] := by
  constructor
  · rfl
  · rfl

/-- One iteration of the grouping loop of group_by_sum: the source reads the
sum field at tuple position 2, inserts a fresh empty group when the key is
absent, and appends the record to its group.  The Python dict keeps keys in
insertion order, modelled by an association list. -/
def gb_step (groups : List (Int × List Enhanced)) (coord : Enhanced) :
    List (Int × List Enhanced) :=
  if groups.any (fun g => g.1 == coord.sum)
  then groups.map (fun g => if g.1 == coord.sum then (g.1, g.2 ++ [coord]) else g)
  else groups ++ [(coord.sum, [coord])]

/-- Embedding of group_by_sum(enhanced_coords). -/
def group_by_sum (enhanced_coords : List Enhanced) : List (Int × List Enhanced) :=
  enhanced_coords.foldl gb_step []

/-- What a new key does to the key list of the grouping dict. -/
def insert_key (ks : List Int) (s : Int) : List Int :=
  if s ∈ ks then ks else ks ++ [s]

theorem gb_step_any_iff (acc : List (Int × List Enhanced)) (c : Enhanced) :
    acc.any (fun g => g.1 == c.sum) = true ↔ c.sum ∈ acc.map Prod.fst := by
  rw [List.any_eq_true]
  constructor
  · rintro ⟨g, hg, hbeq⟩
    rw [beq_iff_eq] at hbeq
    rw [List.mem_map]
    exact ⟨g, hg, hbeq⟩
  · intro h
    rw [List.mem_map] at h
    obtain ⟨g, hg, hfst⟩ := h
    exact ⟨g, hg, beq_iff_eq.mpr hfst⟩

theorem gb_step_map_fst (acc : List (Int × List Enhanced)) (c : Enhanced) :
    (gb_step acc c).map Prod.fst = insert_key (acc.map Prod.fst) c.sum := by
  unfold gb_step insert_key
  by_cases h : c.sum ∈ acc.map Prod.fst
  · rw [if_pos ((gb_step_any_iff acc c).mpr h), if_pos h, List.map_map]
    apply List.map_congr_left
    intro g _
    simp only [Function.comp_apply]
    split
    · rfl
    · rfl
  · rw [if_neg (fun hc => h ((gb_step_any_iff acc c).mp hc)), if_neg h, List.map_append]
    rfl


theorem filter_single (p : Enhanced → Bool) (c : Enhanced) :
    List.filter p [c] = if p c then [c] else [] := by
  rw [List.filter_cons]
  split
  · rw [List.filter_nil]
  · rw [List.filter_nil]

theorem filter_single_of_eq {c : Enhanced} {k : Int} (h : c.sum = k) :
    List.filter (fun r => r.sum == k) [c] = [c] := by
  rw [filter_single, if_pos]
  exact beq_iff_eq.mpr h

theorem filter_single_of_ne {c : Enhanced} {k : Int} (h : c.sum ≠ k) :
    List.filter (fun r => r.sum == k) [c] = [] := by
  rw [filter_single, if_neg]
  simp only [beq_iff_eq]
  exact h

theorem gb_fold_invariant (l : List Enhanced) :
    ∀ (prev : List Enhanced) (acc : List (Int × List Enhanced)),
    (acc.map Prod.fst).Nodup →
    (∀ kg ∈ acc, kg.2 = prev.filter (fun r => r.sum == kg.1)) →
    (∀ s : Int, s ∈ acc.map Prod.fst ↔ s ∈ prev.map Enhanced.sum) →
    ((l.foldl gb_step acc).map Prod.fst).Nodup ∧
      (∀ kg ∈ l.foldl gb_step acc,
        kg.2 = (prev ++ l).filter (fun r => r.sum == kg.1)) ∧
      (∀ s : Int,
        s ∈ (l.foldl gb_step acc).map Prod.fst ↔ s ∈ (prev ++ l).map Enhanced.sum) := by
  induction l with
  | nil =>
    intro prev acc h1 h2 h3
    rw [List.foldl_nil, List.append_nil]
    exact ⟨h1, h2, h3⟩
  | cons c l ih =>
    intro prev acc h1 h2 h3
    have hstep1 : ((gb_step acc c).map Prod.fst).Nodup := by
      rw [gb_step_map_fst, insert_key]
      split
      · exact h1
      · rename_i hnot
        rw [List.nodup_append]
        exact ⟨h1, List.nodup_singleton _, by simpa using hnot⟩
    have hstep2 : ∀ kg ∈ gb_step acc c,
        kg.2 = (prev ++ [c]).filter (fun r => r.sum == kg.1) := by
      intro kg hkg
      unfold gb_step at hkg
      by_cases hany : acc.any (fun g => g.1 == c.sum) = true
      · rw [if_pos hany, List.mem_map] at hkg
        obtain ⟨g, hg, hup⟩ := hkg
        rw [List.filter_append]
        by_cases hgc : g.1 = c.sum
        · rw [if_pos (beq_iff_eq.mpr hgc)] at hup
          have hfst : kg.1 = g.1 := by rw [← hup]
          have hsnd : kg.2 = g.2 ++ [c] := by rw [← hup]
          rw [hsnd, h2 g hg, hfst, filter_single_of_eq hgc.symm]
        · rw [if_neg (fun hb => hgc (beq_iff_eq.mp hb))] at hup
          rw [← hup, filter_single_of_ne (fun hb => hgc (by rw [hb])),
            List.append_nil]
          exact h2 g hg
      · rw [if_neg hany] at hkg
        have hnotin : c.sum ∉ acc.map Prod.fst := fun hc =>
          hany ((gb_step_any_iff acc c).mpr hc)
        rw [List.mem_append] at hkg
        rcases hkg with hold | hnew
        · have hne : c.sum ≠ kg.1 := by
            intro he
            exact hnotin (he ▸ List.mem_map.mpr ⟨kg, hold, rfl⟩)
          rw [List.filter_append, filter_single_of_ne hne, List.append_nil]
          exact h2 kg hold
        · rw [List.mem_singleton] at hnew
          subst hnew
          have hprev : List.filter (fun r => r.sum == c.sum) prev = [] := by
            rw [List.filter_eq_nil_iff]
            intro r hr hbeq
            rw [beq_iff_eq] at hbeq
            have : c.sum ∈ prev.map Enhanced.sum :=
              hbeq ▸ List.mem_map.mpr ⟨r, hr, rfl⟩
            exact hnotin ((h3 c.sum).mpr this)
          rw [List.filter_append, hprev, List.nil_append, filter_single_of_eq rfl]
    have hstep3 : ∀ s : Int,
        s ∈ (gb_step acc c).map Prod.fst ↔ s ∈ (prev ++ [c]).map Enhanced.sum := by
      intro s
      rw [gb_step_map_fst, insert_key, List.map_append, List.mem_append,
        List.map_singleton, List.mem_singleton]
      split
      · rename_i hmem
        constructor
        · intro h
          exact Or.inl ((h3 s).mp h)
        · rintro (h | h)
          · exact (h3 s).mpr h
          · exact h ▸ hmem
      · rw [List.mem_append, List.mem_singleton]
        constructor
        · rintro (h | h)
          · exact Or.inl ((h3 s).mp h)
          · exact Or.inr h
        · rintro (h | h)
          · exact Or.inl ((h3 s).mpr h)
          · exact Or.inr h
    have hres := ih (prev ++ [c]) (gb_step acc c) hstep1 hstep2 hstep3
    rw [List.append_assoc, List.singleton_append] at hres
    rw [List.foldl_cons]
    exact hres

theorem sum_map_if_eq (A : Nat) (s : Int) :
    ∀ ks : List Int, ks.Nodup →
      ((ks.map (fun k => if s = k then A else 0)).sum = if s ∈ ks then A else 0) := by
  intro ks
  induction ks with
  | nil => simp
  | cons k ks ih =>
    intro hnd
    rw [List.nodup_cons] at hnd
    rw [List.map_cons, List.sum_cons, ih hnd.2]
    by_cases hk : s = k
    · have hmem : s ∈ k :: ks := by rw [hk]; exact List.mem_cons_self k ks
      have hnot : s ∉ ks := by rw [hk]; exact hnd.1
      rw [if_pos hk, if_neg hnot, if_pos hmem, Nat.add_zero]
    · rw [if_neg hk]
      by_cases hks : s ∈ ks
      · rw [if_pos hks, if_pos (List.mem_cons_of_mem k hks), Nat.zero_add]
      · rw [if_neg hks]
        have : s ∉ k :: ks := by
          rw [List.mem_cons]
          rintro (h | h)
          · exact hk h
          · exact hks h
        rw [if_neg this]

theorem count_filter_sum (x : Enhanced) (k : Int) (l : List Enhanced) :
    (l.filter (fun r => r.sum == k)).count x = if x.sum = k then l.count x else 0 := by
  by_cases h : x.sum = k
  · rw [if_pos h,
      @List.count_filter _ _ _ (fun r => r.sum == k) x l (beq_iff_eq.mpr h)]
  · rw [if_neg h, List.count_eq_zero]
    intro hmem
    rw [List.mem_filter, beq_iff_eq] at hmem
    exact h hmem.2

/-- C5: for every sequence of enriched records, each group produced by
group_by_sum is exactly the input subsequence of records carrying that sum
(so the relative input order inside every group is preserved), and
concatenating the groups reproduces the input as a multiset. -/
theorem group_by_sum_roundtrip (l : List Enhanced) :
    (∀ kg ∈ group_by_sum l, kg.2 = l.filter (fun r => r.sum == kg.1)) ∧
      ((group_by_sum l).map Prod.snd).flatten.Perm l := by
  have hinv := gb_fold_invariant l [] [] (by simp) (by simp) (by simp)
  rw [List.nil_append] at hinv
  rw [show List.foldl gb_step [] l = group_by_sum l from rfl] at hinv
  obtain ⟨hnd, hcontent, hmem⟩ := hinv
  refine ⟨hcontent, ?_⟩
  rw [List.perm_iff_count]
  intro x
  rw [List.count_flatten, List.map_map]
  have hpt : ∀ kg ∈ group_by_sum l,
      (Prod.snd kg).count x = if x.sum = kg.1 then l.count x else 0 := by
    intro kg hkg
    rw [hcontent kg hkg, count_filter_sum]
  have hfun : ∀ kg ∈ group_by_sum l,
      (List.count x ∘ Prod.snd) kg = if x.sum = kg.1 then l.count x else 0 :=
    fun kg hkg => hpt kg hkg
  rw [List.map_congr_left hfun]
  have : (group_by_sum l).map (fun kg => if x.sum = kg.1 then l.count x else 0)
      = ((group_by_sum l).map Prod.fst).map (fun k => if x.sum = k then l.count x else 0) := by
    rw [List.map_map]
    rfl
  rw [this, sum_map_if_eq (l.count x) x.sum _ hnd]
  by_cases hx : x.sum ∈ (group_by_sum l).map Prod.fst
  · rw [if_pos hx]
  · rw [if_neg hx]
    rw [hmem] at hx
    rw [eq_comm, List.count_eq_zero]
    intro hxl
    exact hx (List.mem_map.mpr ⟨x, hxl, rfl⟩)

theorem group_keys_fold (l : List Enhanced) :
    ∀ acc : List (Int × List Enhanced),
      ((l.foldl gb_step acc).map Prod.fst)
        = (l.map Enhanced.sum).foldl insert_key (acc.map Prod.fst) := by
  induction l with
  | nil => intro acc; rfl
  | cons c l ih =>
    intro acc
    rw [List.foldl_cons, List.map_cons, List.foldl_cons, ih, gb_step_map_fst]

theorem mem_foldl_insert_key (sums : List Int) :
    ∀ s : Int, s ∈ sums.foldl insert_key [] ↔ s ∈ sums := by
  induction sums using List.reverseRecOn with
  | nil => intro s; rfl
  | append_singleton sums a ih =>
    intro s
    rw [List.foldl_append, List.foldl_cons, List.foldl_nil, insert_key,
      List.mem_append, List.mem_singleton]
    split
    · rename_i hmem
      rw [ih]
      constructor
      · exact Or.inl
      · rintro (h | h)
        · exact h
        · exact h ▸ (ih a).mp hmem
    · rw [List.mem_append, List.mem_singleton, ih]

theorem foldl_insert_key_eq (sums : List Int) :
    sums.foldl insert_key [] = (sums.reverse.dedup).reverse := by
  induction sums using List.reverseRecOn with
  | nil => rfl
  | append_singleton sums a ih =>
    rw [List.foldl_append, List.foldl_cons, List.foldl_nil, ih,
      List.reverse_append, List.reverse_singleton, List.singleton_append]
    by_cases hmem : a ∈ sums
    · rw [List.dedup_cons_of_mem (List.mem_reverse.mpr hmem), insert_key,
        if_pos]
      rw [List.mem_reverse, List.mem_dedup, List.mem_reverse]
      exact hmem
    · rw [List.dedup_cons_of_not_mem (fun h => hmem (List.mem_reverse.mp h)),
        insert_key, if_neg, List.reverse_cons]
      rw [List.mem_reverse, List.mem_dedup, List.mem_reverse]
      exact hmem

/-- C10: group_by_sum enumerates its keys in the order of first appearance of
each sum value in the input (keeping the first of each value in input order,
which is the reverse-dedup-reverse of the mapped sums), not in ascending
numeric order; the concrete instance shows a key list that is not sorted. -/
theorem group_by_sum_key_order (l : List Enhanced) :
    (group_by_sum l).map Prod.fst = ((l.map Enhanced.sum).reverse.dedup).reverse ∧
      (group_by_sum [Enhanced.mk 0 0 10 0 0 0, Enhanced.mk 0 0 4 0 0 0]).map Prod.fst
        = [10, 4] := by
  constructor
  · have h := group_keys_fold l []
    rw [show ([] : List (Int × List Enhanced)).map Prod.fst = [] from rfl] at h
    rw [group_by_sum, h, foldl_insert_key_eq]
  · rfl

/-- Embedding of the dict comprehension building prime_to_index in
enhance_coordinates: later entries overwrite earlier ones, and a missing key
raises KeyError, modelled as none. -/
def prime_to_index (primes : List Int) : Int → Option Nat :=
  primes.enum.foldl
    (fun d ia => fun q => if q = ia.2 then some (ia.1 + 1) else d q)
    (fun _ => none)

/-- Embedding of the defaultdict counting pass of enhance_coordinates: the
count of each sum over all pair records. -/
def sum_counts (coords : List Coord) : Int → Nat :=
  coords.foldl (fun d c => fun s => if s = c.y_sum then d s + 1 else d s)
    (fun _ => 0)

/-- The second pass of enhance_coordinates over the pair records: the first
failing dictionary lookup aborts the whole computation (KeyError), otherwise
each record receives its two 1-based ranks and the duplicate count of its sum.
The counting dict is built from the full record list, passed separately. -/
def enhance_list (coords_all : List Coord) (primes : List Int) :
    List Coord → Option (List Enhanced)
  | [] => some []
  | c :: rest =>
    match prime_to_index primes c.prime1 with
    | none => none
    | some i1 =>
      match prime_to_index primes c.prime2 with
      | none => none
      | some i2 =>
        match enhance_list coords_all primes rest with
        | none => none
        | some out =>
          some (Enhanced.mk c.prime1 c.prime2 c.y_sum i1 i2
            (sum_counts coords_all c.y_sum) :: out)

/-- Embedding of enhance_coordinates(coords, primes). -/
def enhance_coordinates (coords : List Coord) (primes : List Int) :
    Option (List Enhanced) :=
  enhance_list coords primes coords

theorem prime_to_index_append (l : List Int) (a : Int) (q : Int) :
    prime_to_index (l ++ [a]) q
      = if q = a then some (l.length + 1) else prime_to_index l q := by
  unfold prime_to_index
  rw [List.enum_append]
  rw [show List.enumFrom l.length [a] = [(l.length, a)] from rfl]
  rw [List.foldl_append, List.foldl_cons, List.foldl_nil]

theorem prime_to_index_none_iff (primes : List Int) (q : Int) :
    prime_to_index primes q = none ↔ q ∉ primes := by
  induction primes using List.reverseRecOn with
  | nil => simp [prime_to_index]
  | append_singleton l a ih =>
    rw [prime_to_index_append, List.mem_append, List.mem_singleton]
    by_cases hq : q = a
    · rw [if_pos hq]
      simp [hq]
    · rw [if_neg hq, ih]
      constructor
      · intro h
        rintro (hl | ha)
        · exact h hl
        · exact hq ha
      · intro h hl
        exact h (Or.inl hl)

theorem prime_to_index_of_nodup {primes : List Int} {p : Int}
    (hnd : primes.Nodup) (hmem : p ∈ primes) :
    prime_to_index primes p = some (primes.indexOf p + 1) := by
  induction primes using List.reverseRecOn with
  | nil => exact absurd hmem (List.not_mem_nil p)
  | append_singleton l a ih =>
    rw [List.nodup_append] at hnd
    obtain ⟨hl, _, hdisj⟩ := hnd
    rw [prime_to_index_append]
    by_cases hp : p = a
    · rw [if_pos hp]
      have hnotl : a ∉ l := fun h => hdisj h (List.mem_singleton.mpr rfl)
      rw [hp, List.indexOf_append_of_not_mem hnotl]
      rw [show List.indexOf a [a] = 0 by simp [List.indexOf_cons]]
    · rw [if_neg hp]
      have hpl : p ∈ l := by
        rcases List.mem_append.mp hmem with h | h
        · exact h
        · exact absurd (List.mem_singleton.mp h) hp
      rw [ih hl hpl, List.indexOf_append_of_mem hpl]

theorem sum_counts_fold (l : List Coord) :
    ∀ (d : Int → Nat) (s : Int),
      (l.foldl (fun d c => fun s => if s = c.y_sum then d s + 1 else d s) d) s
        = d s + l.countP (fun c => c.y_sum == s) := by
  induction l with
  | nil => intro d s; simp
  | cons c l ih =>
    intro d s
    rw [List.foldl_cons, ih, List.countP_cons]
    by_cases h : c.y_sum = s
    · rw [if_pos h.symm, if_pos (show (c.y_sum == s) = true from beq_iff_eq.mpr h)]
      omega
    · rw [if_neg (show ¬s = c.y_sum from fun he => h he.symm),
        if_neg (show ¬(c.y_sum == s) = true from fun hb => h (beq_iff_eq.mp hb))]
      omega

theorem sum_counts_eq_countP (coords : List Coord) (s : Int) :
    sum_counts coords s = coords.countP (fun c => c.y_sum == s) := by
  unfold sum_counts
  rw [sum_counts_fold]
  omega

theorem enhance_list_none_iff (ca : List Coord) (primes : List Int) :
    ∀ coords : List Coord,
      enhance_list ca primes coords = none
        ↔ ∃ c ∈ coords, c.prime1 ∉ primes ∨ c.prime2 ∉ primes := by
  intro coords
  induction coords with
  | nil => simp [enhance_list]
  | cons c rest ih =>
    rw [enhance_list]
    cases h1 : prime_to_index primes c.prime1 with
    | none =>
      simp only [true_iff]
      exact ⟨c, List.mem_cons_self c rest,
        Or.inl ((prime_to_index_none_iff primes c.prime1).mp h1)⟩
    | some i1 =>
      cases h2 : prime_to_index primes c.prime2 with
      | none =>
        simp only [true_iff]
        exact ⟨c, List.mem_cons_self c rest,
          Or.inr ((prime_to_index_none_iff primes c.prime2).mp h2)⟩
      | some i2 =>
        cases h3 : enhance_list ca primes rest with
        | none =>
          simp only [true_iff]
          obtain ⟨d, hd, hcase⟩ := ih.mp h3
          exact ⟨d, List.mem_cons_of_mem c hd, hcase⟩
        | some out =>
          simp only [reduceCtorEq, false_iff]
          rintro ⟨d, hd, hcase⟩
          rw [List.mem_cons] at hd
          rcases hd with rfl | hd
          · rcases hcase with hc | hc
            · rw [← prime_to_index_none_iff primes d.prime1, h1] at hc
              exact Option.noConfusion hc
            · rw [← prime_to_index_none_iff primes d.prime2, h2] at hc
              exact Option.noConfusion hc
          · have hnone : enhance_list ca primes rest = none := ih.mpr ⟨d, hd, hcase⟩
            rw [h3] at hnone
            exact Option.noConfusion hnone

/-- C8: the enricher fails (propagating the KeyError of the dictionary
lookup, which is a LookupError; the function body has no handler) exactly
when some pair record references a prime value absent from the prime list,
and therefore never fails on valid input. -/
theorem enhance_lookup_failure_iff (coords : List Coord) (primes : List Int) :
    enhance_coordinates coords primes = none
      ↔ ∃ c ∈ coords, c.prime1 ∉ primes ∨ c.prime2 ∉ primes := by
  unfold enhance_coordinates
  exact enhance_list_none_iff coords primes coords

theorem enhance_list_eq_map {primes : List Int} (ca : List Coord)
    (hnd : primes.Nodup) :
    ∀ coords : List Coord,
      (∀ c ∈ coords, c.prime1 ∈ primes ∧ c.prime2 ∈ primes) →
      enhance_list ca primes coords
        = some (coords.map (fun c =>
            Enhanced.mk c.prime1 c.prime2 c.y_sum
              (primes.indexOf c.prime1 + 1) (primes.indexOf c.prime2 + 1)
              (sum_counts ca c.y_sum))) := by
  intro coords
  induction coords with
  | nil => intro _; rfl
  | cons c rest ih =>
    intro hall
    have hc := hall c (List.mem_cons_self c rest)
    rw [enhance_list, prime_to_index_of_nodup hnd hc.1,
      prime_to_index_of_nodup hnd hc.2,
      ih (fun d hd => hall d (List.mem_cons_of_mem c hd)), List.map_cons]

/-- Default record values used to state element-wise facts via getD. -/
def dummy_coord : Coord := Coord.mk 0 0 0

/-- Default enriched record used to state element-wise facts via getD. -/
def dummy_enhanced : Enhanced := Enhanced.mk 0 0 0 0 0 0

/-- C7: when every pair member occurs in the (duplicate-free) prime list, the
enricher succeeds with a list of the same length, the record at each position
keeps the primes and sum of the input record at that position, and index1 and
index2 are the 1-based positions of prime1 and prime2 in the prime list. -/
theorem enhance_indices_correct (coords : List Coord) (primes : List Int)
    (hall : ∀ c ∈ coords, c.prime1 ∈ primes ∧ c.prime2 ∈ primes)
    (hnd : primes.Nodup) :
    ∃ out : List Enhanced, enhance_coordinates coords primes = some out ∧
      out.length = coords.length ∧
      ∀ k : Nat, k < coords.length →
        (out.getD k dummy_enhanced).prime1 = (coords.getD k dummy_coord).prime1 ∧
        (out.getD k dummy_enhanced).prime2 = (coords.getD k dummy_coord).prime2 ∧
        (out.getD k dummy_enhanced).sum = (coords.getD k dummy_coord).y_sum ∧
        (out.getD k dummy_enhanced).index1
          = primes.indexOf (coords.getD k dummy_coord).prime1 + 1 ∧
        (out.getD k dummy_enhanced).index2
          = primes.indexOf (coords.getD k dummy_coord).prime2 + 1 := by
  refine ⟨_, enhance_list_eq_map coords hnd coords hall, List.length_map _ _, ?_⟩
  intro k hk
  have hk2 : k < (coords.map (fun c =>
      Enhanced.mk c.prime1 c.prime2 c.y_sum
        (primes.indexOf c.prime1 + 1) (primes.indexOf c.prime2 + 1)
        (sum_counts coords c.y_sum))).length := by
    rw [List.length_map]
    exact hk
  rw [List.getD_eq_getElem _ _ hk2, List.getD_eq_getElem _ _ hk,
    List.getElem_map]
  exact ⟨rfl, rfl, rfl, rfl, rfl⟩

/-- Witness for enhance_indices_correct at coords [(3, 8, 5)] and primes
[2, 3, 5, 7]. -/
theorem enhance_indices_correct_witness :
    ((∀ c ∈ [Coord.mk 3 8 5], c.prime1 ∈ [(2 : Int), 3, 5, 7] ∧
          c.prime2 ∈ [(2 : Int), 3, 5, 7]) ∧
        List.Nodup [(2 : Int), 3, 5, 7]) ∧
      ∃ out : List Enhanced,
        enhance_coordinates [Coord.mk 3 8 5] [(2 : Int), 3, 5, 7] = some out ∧
        out.length = [Coord.mk 3 8 5].length ∧
        ∀ k : Nat, k < [Coord.mk 3 8 5].length →
          (out.getD k dummy_enhanced).prime1
            = ([Coord.mk 3 8 5].getD k dummy_coord).prime1 ∧
          (out.getD k dummy_enhanced).prime2
            = ([Coord.mk 3 8 5].getD k dummy_coord).prime2 ∧
          (out.getD k dummy_enhanced).sum
            = ([Coord.mk 3 8 5].getD k dummy_coord).y_sum ∧
          (out.getD k dummy_enhanced).index1
            = [(2 : Int), 3, 5, 7].indexOf ([Coord.mk 3 8 5].getD k dummy_coord).prime1 + 1 ∧
          (out.getD k dummy_enhanced).index2
            = [(2 : Int), 3, 5, 7].indexOf ([Coord.mk 3 8 5].getD k dummy_coord).prime2 + 1 := by
  have h1 : ∀ c ∈ [Coord.mk 3 8 5], c.prime1 ∈ [(2 : Int), 3, 5, 7] ∧
      c.prime2 ∈ [(2 : Int), 3, 5, 7] := by decide
  have h2 : List.Nodup [(2 : Int), 3, 5, 7] := by decide
  exact ⟨⟨h1, h2⟩, enhance_indices_correct [Coord.mk 3 8 5] [(2 : Int), 3, 5, 7] h1 h2⟩

theorem countP_sum_eq_count (out : List Enhanced) (s : Int) :
    out.countP (fun r2 => r2.sum == s) = (out.map Enhanced.sum).count s := by
  rw [List.count_eq_countP, List.countP_map]
  rfl

theorem enhance_list_sums_and_counts (ca : List Coord) (primes : List Int) :
    ∀ (coords : List Coord) (out : List Enhanced),
      enhance_list ca primes coords = some out →
      out.map Enhanced.sum = coords.map Coord.y_sum ∧
      ∀ r ∈ out, r.dup_count = sum_counts ca r.sum := by
  intro coords
  induction coords with
  | nil =>
    intro out hout
    rw [enhance_list] at hout
    obtain rfl : ([] : List Enhanced) = out := Option.some.inj hout
    exact ⟨rfl, fun r hr => absurd hr (List.not_mem_nil r)⟩
  | cons c rest ih =>
    intro out hout
    rw [enhance_list] at hout
    cases h1 : prime_to_index primes c.prime1 with
    | none => rw [h1] at hout; exact Option.noConfusion hout
    | some i1 =>
      rw [h1] at hout
      cases h2 : prime_to_index primes c.prime2 with
      | none => rw [h2] at hout; exact Option.noConfusion hout
      | some i2 =>
        rw [h2] at hout
        cases h3 : enhance_list ca primes rest with
        | none => rw [h3] at hout; exact Option.noConfusion hout
        | some out2 =>
          rw [h3] at hout
          obtain rfl := Option.some.inj hout
          obtain ⟨ihsum, ihdup⟩ := ih out2 h3
          constructor
          · rw [List.map_cons, List.map_cons, ihsum]
          · intro r hr
            rw [List.mem_cons] at hr
            rcases hr with rfl | hr
            · rfl
            · exact ihdup r hr

/-- C4: for every successful run of the enricher, records sharing a sum value
carry the same duplicateCount, that count is the total number of input pair
records (and of output records) with that sum, and summing the per-sum count
over the distinct sums gives back the total number of records. -/
theorem enhance_duplicate_count (coords : List Coord) (primes : List Int)
    (out : List Enhanced) (hout : enhance_coordinates coords primes = some out) :
    (∀ r1 ∈ out, ∀ r2 ∈ out, r1.sum = r2.sum → r1.dup_count = r2.dup_count) ∧
      (∀ r ∈ out, r.dup_count = coords.countP (fun c => c.y_sum == r.sum) ∧
        r.dup_count = out.countP (fun r2 => r2.sum == r.sum)) ∧
      ((out.map Enhanced.sum).dedup.map
        (fun s => out.countP (fun r2 => r2.sum == s))).sum = out.length := by
  unfold enhance_coordinates at hout
  obtain ⟨hsums, hdup⟩ := enhance_list_sums_and_counts coords primes coords out hout
  have hcount : ∀ s : Int,
      out.countP (fun r2 => r2.sum == s) = coords.countP (fun c => c.y_sum == s) := by
    intro s
    rw [countP_sum_eq_count, hsums, List.count_eq_countP, List.countP_map]
    rfl
  refine ⟨?_, ?_, ?_⟩
  · intro r1 h1 r2 h2 hsum
    rw [hdup r1 h1, hdup r2 h2, hsum]
  · intro r hr
    refine ⟨?_, ?_⟩
    · rw [hdup r hr, sum_counts_eq_countP]
    · rw [hdup r hr, sum_counts_eq_countP, hcount]
  · have hfn : ∀ s ∈ (out.map Enhanced.sum).dedup,
        out.countP (fun r2 => r2.sum == s) = (out.map Enhanced.sum).count s := by
      intro s _
      rw [countP_sum_eq_count]
    rw [List.map_congr_left hfn, List.sum_map_count_dedup_eq_length,
      List.length_map]

/-- Witness for enhance_duplicate_count at the seven-record golden output for
primes [2, 3, 5, 7] and ceiling 14. -/
theorem enhance_duplicate_count_witness :
    enhance_coordinates (goldbachs_calculation [2, 3, 5, 7] (some 14)) [2, 3, 5, 7]
        = some [Enhanced.mk 2 2 4 1 1 1, Enhanced.mk 3 3 6 2 2 1,
          Enhanced.mk 3 5 8 2 3 1, Enhanced.mk 3 7 10 2 4 2,
          Enhanced.mk 5 5 10 3 3 2, Enhanced.mk 5 7 12 3 4 1,
          Enhanced.mk 7 7 14 4 4 1] ∧
      (∀ r1 ∈ [Enhanced.mk 2 2 4 1 1 1, Enhanced.mk 3 3 6 2 2 1,
          Enhanced.mk 3 5 8 2 3 1, Enhanced.mk 3 7 10 2 4 2,
          Enhanced.mk 5 5 10 3 3 2, Enhanced.mk 5 7 12 3 4 1,
          Enhanced.mk 7 7 14 4 4 1],
        ∀ r2 ∈ [Enhanced.mk 2 2 4 1 1 1, Enhanced.mk 3 3 6 2 2 1,
          Enhanced.mk 3 5 8 2 3 1, Enhanced.mk 3 7 10 2 4 2,
          Enhanced.mk 5 5 10 3 3 2, Enhanced.mk 5 7 12 3 4 1,
          Enhanced.mk 7 7 14 4 4 1],
        r1.sum = r2.sum → r1.dup_count = r2.dup_count) ∧
      (([Enhanced.mk 2 2 4 1 1 1, Enhanced.mk 3 3 6 2 2 1,
          Enhanced.mk 3 5 8 2 3 1, Enhanced.mk 3 7 10 2 4 2,
          Enhanced.mk 5 5 10 3 3 2, Enhanced.mk 5 7 12 3 4 1,
          Enhanced.mk 7 7 14 4 4 1].map Enhanced.sum).dedup.map
        (fun s => [Enhanced.mk 2 2 4 1 1 1, Enhanced.mk 3 3 6 2 2 1,
          Enhanced.mk 3 5 8 2 3 1, Enhanced.mk 3 7 10 2 4 2,
          Enhanced.mk 5 5 10 3 3 2, Enhanced.mk 5 7 12 3 4 1,
          Enhanced.mk 7 7 14 4 4 1].countP (fun r2 => r2.sum == s))).sum = 7 := by
  have hout : enhance_coordinates (goldbachs_calculation [2, 3, 5, 7] (some 14))
      [2, 3, 5, 7]
      = some [Enhanced.mk 2 2 4 1 1 1, Enhanced.mk 3 3 6 2 2 1,
        Enhanced.mk 3 5 8 2 3 1, Enhanced.mk 3 7 10 2 4 2,
        Enhanced.mk 5 5 10 3 3 2, Enhanced.mk 5 7 12 3 4 1,
        Enhanced.mk 7 7 14 4 4 1] := by rfl
  have h := enhance_duplicate_count (goldbachs_calculation [2, 3, 5, 7] (some 14))
    [2, 3, 5, 7] _ hout
  exact ⟨hout, h.1, h.2.2⟩

/-- Embedding of the inner marking loop of sieve_of_eratosthenes: the Python
statement for multiple in range(start, bound, step) sets is_prime[multiple]
to False; the mark array is modelled as a function from indices to Bool. -/
def markMultiples (arr : Nat → Bool) (start step bound : Nat) : Nat → Bool :=
  if _h : start < bound ∧ 0 < step then
    markMultiples (fun n => if n = start then false else arr n) (start + step) step bound
  else arr
termination_by bound - start
decreasing_by omega

theorem markMultiples_apply (bound : Nat) :
    ∀ (fuel start : Nat), bound - start ≤ fuel →
    ∀ (arr : Nat → Bool) (step : Nat), 0 < step → ∀ n : Nat,
      markMultiples arr start step bound n
        = if start ≤ n ∧ n < bound ∧ step ∣ (n - start) then false else arr n := by
  intro fuel
  induction fuel with
  | zero =>
    intro start hf arr step hs n
    rw [markMultiples, dif_neg (by omega)]
    rw [if_neg (by omega)]
  | succ fuel ih =>
    intro start hf arr step hs n
    rw [markMultiples]
    by_cases hlt : start < bound
    · rw [dif_pos ⟨hlt, hs⟩, ih (start + step) (by omega) _ step hs n]
      by_cases hn : n = start
      · subst hn
        rw [if_neg (by omega), if_pos rfl, if_pos ⟨le_refl n, hlt, by simp⟩]
      · rw [show (if n = start then false else arr n) = arr n from if_neg hn]
        by_cases hc : start ≤ n ∧ n < bound ∧ step ∣ (n - start)
        · rw [if_pos hc]
          obtain ⟨t, ht⟩ := hc.2.2
          have htpos : 0 < t := by
            rcases Nat.eq_zero_or_pos t with h0 | h0
            · subst h0
              rw [Nat.mul_zero] at ht
              omega
            · exact h0
          have hge : step ≤ n - start := by
            rw [ht]
            exact Nat.le_mul_of_pos_right step htpos
          rw [if_pos ⟨by omega, hc.2.1, by
            rw [← Nat.sub_sub]
            exact Nat.dvd_sub' hc.2.2 (dvd_refl step)⟩]
        · rw [if_neg hc, if_neg]
          rintro ⟨k1, k2, k3⟩
          apply hc
          refine ⟨by omega, k2, ?_⟩
          have he : n - start = (n - (start + step)) + step := by omega
          rw [he]
          exact Nat.dvd_add k3 (dvd_refl step)
    · rw [dif_neg (fun hcon => hlt hcon.1), if_neg (by omega)]

theorem markMultiples_spec (arr : Nat → Bool) (start step bound : Nat)
    (hs : 0 < step) (n : Nat) :
    markMultiples arr start step bound n
      = if start ≤ n ∧ n < bound ∧ step ∣ (n - start) then false else arr n :=
  markMultiples_apply bound (bound - start) start (le_refl _) arr step hs n

/-- Embedding of the marking phase of sieve_of_eratosthenes for a
nonnegative limit of at least 2: the array starts as true everywhere except
indices 0 and 1, then every num from 2 up to the integer square root of the
limit whose entry is still true has its multiples from num * num up to the
limit marked false.  The Python square root int(limit ** 0.5) is modelled as
Nat.sqrt. -/
def sieve_marks (limit : Nat) : Nat → Bool :=
  (List.range' 2 (Nat.sqrt limit - 1)).foldl
    (fun arr num => if arr num then markMultiples arr (num * num) num (limit + 1) else arr)
    (fun n => decide (2 ≤ n))

/-- Embedding of sieve_of_eratosthenes(limit).  int(limit) on an int is the
identity; for limit below 2 the function returns the empty list; otherwise
it collects, in ascending order, the indices from 2 to limit whose mark is
still true. -/
def sieve_of_eratosthenes (limit : Int) : List Nat :=
  if limit < 2 then []
  else (List.range' 2 (limit.toNat - 1)).filter (fun n => sieve_marks limit.toNat n)

theorem sieve_fold_inv (limit : Nat) :
    ∀ (c s : Nat) (arr : Nat → Bool),
      2 ≤ s → s + c ≤ Nat.sqrt limit + 1 →
      (∀ n, n ≤ limit → (arr n = true ↔ 2 ≤ n ∧
        ¬∃ d, 2 ≤ d ∧ d < s ∧ d * d ≤ n ∧ d ∣ n)) →
      ∀ n, n ≤ limit →
        ((List.range' s c).foldl
            (fun arr num =>
              if arr num then markMultiples arr (num * num) num (limit + 1) else arr)
            arr n = true
          ↔ 2 ≤ n ∧ ¬∃ d, 2 ≤ d ∧ d < s + c ∧ d * d ≤ n ∧ d ∣ n) := by
  intro c
  induction c with
  | zero =>
    intro s arr h2 hle hinv n hn
    rw [List.range'_zero, List.foldl_nil, Nat.add_zero]
    exact hinv n hn
  | succ c ih =>
    intro s arr h2 hle hinv n hn
    rw [List.range'_succ, List.foldl_cons]
    have hs_le : s ≤ Nat.sqrt limit := by omega
    have hs_lim : s ≤ limit := le_trans hs_le (Nat.sqrt_le_self limit)
    have hstep : ∀ n2, n2 ≤ limit →
        ((if arr s then markMultiples arr (s * s) s (limit + 1) else arr) n2 = true
          ↔ 2 ≤ n2 ∧ ¬∃ d, 2 ≤ d ∧ d < s + 1 ∧ d * d ≤ n2 ∧ d ∣ n2) := by
      intro n2 hn2
      by_cases hb : arr s = true
      · rw [if_pos hb]
        rw [markMultiples_spec arr (s * s) s (limit + 1) (by omega) n2]
        have hdiv : (s * s ≤ n2 ∧ n2 < limit + 1 ∧ s ∣ (n2 - s * s))
            ↔ (s * s ≤ n2 ∧ s ∣ n2) := by
          constructor
          · rintro ⟨ha, _, hc⟩
            refine ⟨ha, ?_⟩
            have he : n2 = (n2 - s * s) + s * s := by omega
            rw [he]
            exact Nat.dvd_add hc (dvd_mul_left s s)
          · rintro ⟨ha, hc⟩
            exact ⟨ha, by omega, Nat.dvd_sub' hc (dvd_mul_left s s)⟩
        by_cases hcond : s * s ≤ n2 ∧ n2 < limit + 1 ∧ s ∣ (n2 - s * s)
        · rw [if_pos hcond]
          have hsd : s * s ≤ n2 ∧ s ∣ n2 := hdiv.mp hcond
          constructor
          · intro hfe
            exact absurd hfe (by simp)
          · rintro ⟨_, hno⟩
            exact absurd ⟨s, h2, by omega, hsd.1, hsd.2⟩ hno
        · rw [if_neg hcond, hinv n2 hn2]
          have hns : ¬(s * s ≤ n2 ∧ s ∣ n2) := fun hsd => hcond (hdiv.mpr hsd)
          constructor
          · rintro ⟨ha, hno⟩
            refine ⟨ha, ?_⟩
            rintro ⟨d, hd1, hd2, hd3, hd4⟩
            by_cases hds : d = s
            · subst hds
              exact hns ⟨hd3, hd4⟩
            · exact hno ⟨d, hd1, by omega, hd3, hd4⟩
          · rintro ⟨ha, hno⟩
            refine ⟨ha, ?_⟩
            rintro ⟨d, hd1, hd2, hd3, hd4⟩
            exact hno ⟨d, hd1, by omega, hd3, hd4⟩
      · rw [if_neg hb, hinv n2 hn2]
        have hcomp : ∃ e, 2 ≤ e ∧ e < s ∧ e * e ≤ s ∧ e ∣ s := by
          by_contra hno
          exact hb ((hinv s hs_lim).mpr ⟨h2, hno⟩)
        obtain ⟨e, he1, he2, he3, he4⟩ := hcomp
        constructor
        · rintro ⟨ha, hno⟩
          refine ⟨ha, ?_⟩
          rintro ⟨d, hd1, hd2, hd3, hd4⟩
          by_cases hds : d = s
          · rw [hds] at hd3 hd4
            apply hno
            refine ⟨e, he1, he2, ?_, he4.trans hd4⟩
            have hss : s ≤ s * s := Nat.le_mul_of_pos_left s (by omega)
            exact le_trans he3 (le_trans hss hd3)
          · exact hno ⟨d, hd1, by omega, hd3, hd4⟩
        · rintro ⟨ha, hno⟩
          refine ⟨ha, ?_⟩
          rintro ⟨d, hd1, hd2, hd3, hd4⟩
          exact hno ⟨d, hd1, by omega, hd3, hd4⟩
    have hres := ih (s + 1) _ (by omega) (by omega) hstep n hn
    rw [show s + 1 + c = s + (c + 1) from by omega] at hres
    exact hres

theorem sieve_marks_iff (limit n : Nat) (h2 : 2 ≤ n) (hn : n ≤ limit) :
    (sieve_marks limit n = true ↔ Nat.Prime n) := by
  have hsq1 : 1 ≤ Nat.sqrt limit := Nat.le_sqrt.mpr (by omega)
  have hinv0 : ∀ k, k ≤ limit →
      ((fun j => decide (2 ≤ j)) k = true ↔ 2 ≤ k ∧
        ¬∃ d, 2 ≤ d ∧ d < 2 ∧ d * d ≤ k ∧ d ∣ k) := by
    intro k _
    simp only [decide_eq_true_eq]
    constructor
    · intro h
      refine ⟨h, ?_⟩
      rintro ⟨d, hd1, hd2, _, _⟩
      omega
    · intro h
      exact h.1
  have hfold := sieve_fold_inv limit (Nat.sqrt limit - 1) 2 _ (le_refl 2)
    (by omega) hinv0 n hn
  unfold sieve_marks
  rw [hfold, show 2 + (Nat.sqrt limit - 1) = Nat.sqrt limit + 1 from by omega]
  constructor
  · rintro ⟨hn2, hno⟩
    by_contra hnp
    apply hno
    have hpos : 0 < n := by omega
    have hsq := Nat.minFac_sq_le_self hpos hnp
    rw [pow_two] at hsq
    have hdvd := Nat.minFac_dvd n
    have hp2 : 2 ≤ n.minFac := (Nat.minFac_prime (by omega)).two_le
    have hle : n.minFac ≤ Nat.sqrt limit := Nat.le_sqrt.mpr (le_trans hsq hn)
    exact ⟨n.minFac, hp2, by omega, hsq, hdvd⟩
  · intro hp
    refine ⟨hp.two_le, ?_⟩
    rintro ⟨d, hd1, hd2, hd3, hd4⟩
    rcases hp.eq_one_or_self_of_dvd d hd4 with h1 | h1
    · omega
    · rw [h1] at hd3 hd1
      have h2n : 2 * n ≤ n * n := Nat.mul_le_mul_right n hd1
      omega

/-- C2: the sieve returns exactly the primes up to the limit, in strictly
ascending order, each exactly once and with no divisor between 2 and p - 1,
and returns the empty list (not an error) whenever the limit is below 2,
negative limits included. -/
theorem sieve_of_eratosthenes_correct (limit : Int) :
    (∀ p : Nat, p ∈ sieve_of_eratosthenes limit ↔ Nat.Prime p ∧ (p : Int) ≤ limit) ∧
      (sieve_of_eratosthenes limit).Sorted (· < ·) ∧
      (∀ p : Nat, p ∈ sieve_of_eratosthenes limit →
        ∀ d : Nat, 2 ≤ d → d ≤ p - 1 → ¬ d ∣ p) ∧
      (∀ p : Nat, Nat.Prime p → (p : Int) ≤ limit →
        (sieve_of_eratosthenes limit).count p = 1) ∧
      (limit < 2 → sieve_of_eratosthenes limit = []) := by
  by_cases hl : limit < 2
  · have hempty : sieve_of_eratosthenes limit = [] := if_pos hl
    rw [hempty]
    refine ⟨?_, List.sorted_nil, ?_, ?_, fun _ => rfl⟩
    · intro p
      constructor
      · intro h
        exact absurd h (List.not_mem_nil p)
      · rintro ⟨hp, hple⟩
        have : (2 : Int) ≤ (p : Int) := by exact_mod_cast hp.two_le
        omega
    · intro p hp
      exact absurd hp (List.not_mem_nil p)
    · intro p hp hple
      have : (2 : Int) ≤ (p : Int) := by exact_mod_cast hp.two_le
      omega
  · have hl2 : (2 : Int) ≤ limit := by omega
    have hL2 : 2 ≤ limit.toNat := by omega
    have heq : sieve_of_eratosthenes limit
        = (List.range' 2 (limit.toNat - 1)).filter
            (fun n => sieve_marks limit.toNat n) := if_neg hl
    have hmem : ∀ p : Nat,
        p ∈ sieve_of_eratosthenes limit ↔ Nat.Prime p ∧ (p : Int) ≤ limit := by
      intro p
      rw [heq, List.mem_filter, List.mem_range'_1]
      constructor
      · rintro ⟨⟨hp2, hplt⟩, hmark⟩
        have hple : p ≤ limit.toNat := by omega
        refine ⟨(sieve_marks_iff limit.toNat p hp2 hple).mp hmark, ?_⟩
        rw [← Int.le_toNat (by omega)]
        exact hple
      · rintro ⟨hp, hple⟩
        have hple2 : p ≤ limit.toNat := by
          rw [Int.le_toNat (by omega)]
          exact hple
        have hp2 := hp.two_le
        exact ⟨⟨hp2, by omega⟩,
          (sieve_marks_iff limit.toNat p hp2 hple2).mpr hp⟩
    have hsorted : (sieve_of_eratosthenes limit).Sorted (· < ·) := by
      rw [heq]
      apply List.Pairwise.filter
      rw [List.pairwise_iff_getElem]
      intro a b ha hb hab
      rw [List.getElem_range', List.getElem_range']
      omega
    refine ⟨hmem, hsorted, ?_, ?_, ?_⟩
    · intro p hp d hd2 hdle hddvd
      have hprime := ((hmem p).mp hp).1
      rcases hprime.eq_one_or_self_of_dvd d hddvd with h1 | h1
      · omega
      · have := hprime.two_le
        omega
    · intro p hp hple
      exact List.count_eq_one_of_mem hsorted.nodup ((hmem p).mpr ⟨hp, hple⟩)
    · intro h
      exact absurd h hl

/-- Witness for sieve_of_eratosthenes_correct: the empty result at the
negative limit -5 and the count of the prime 7 at limit 10. -/
theorem sieve_of_eratosthenes_correct_witness :
    ((-5 : Int) < 2 ∧ sieve_of_eratosthenes (-5) = []) ∧
      (Nat.Prime 7 ∧ (7 : Int) ≤ 10 ∧ (sieve_of_eratosthenes 10).count 7 = 1) := by
  refine ⟨⟨by norm_num, (sieve_of_eratosthenes_correct (-5)).2.2.2.2 (by norm_num)⟩,
    ⟨by norm_num, by norm_num,
      (sieve_of_eratosthenes_correct 10).2.2.2.1 7 (by norm_num) (by norm_num)⟩⟩
